import Mathlib

/-!
# RESP codec verification

A shallow embedding of the `resp` module of the `02-simple-redis` repository:
the frame model (`src/resp/mod.rs`) and the encoder (`src/resp/encode.rs`),
together with a decoder modelled from the specification (the repository
declares `mod decode;` but the decoder source is not part of the sources
under verification).

Wire bytes are modelled as `List UInt8`.  Rust `String` payloads are modelled
as their UTF-8 byte lists; Rust `i64` is modelled as `Int`; Rust `f64` is
modelled by the record of observations the encoder makes of it (its sign test,
its magnitude test and its two host renderings), see `F64` below.
-/

namespace Resp

/-- The two wire terminator bytes CR LF. -/
def crlf : List UInt8 := [13, 10]

/-- UTF-8 bytes of an ASCII string (used only to write concrete byte lists
readably; every string we apply it to is ASCII). -/
def strB (s : String) : List UInt8 := s.data.map (fun c => UInt8.ofNat c.toNat)

/-- Decimal digit bytes of a natural number, most significant first
(the rendering `format!("{}")` performs for a non-negative integer).
Fuel-based so that concrete evaluation reduces in the kernel. -/
def natDigitsGo : Nat → Nat → List UInt8 → List UInt8
  | 0, _, acc => acc
  | fuel + 1, n, acc =>
    if n = 0 then acc
    else natDigitsGo fuel (n / 10) (UInt8.ofNat (48 + n % 10) :: acc)

/-- Decimal representation of a natural number as ASCII digit bytes. -/
def natDigits (n : Nat) : List UInt8 :=
  if n = 0 then [48] else natDigitsGo (n + 1) n []

/-- Reference form of `natDigits`, by well-founded recursion, convenient for
proofs (least significant digit appended last). -/
def natDigitsW (n : Nat) : List UInt8 :=
  if h : n < 10 then [UInt8.ofNat (48 + n)]
  else natDigitsW (n / 10) ++ [UInt8.ofNat (48 + n % 10)]
  decreasing_by exact Nat.div_lt_self (by omega) (by omega)

theorem natDigitsGo_zero (fuel : Nat) (acc : List UInt8) : natDigitsGo fuel 0 acc = acc := by
  cases fuel <;> simp [natDigitsGo]

theorem natDigitsGo_eq (fuel n : Nat) (acc : List UInt8) (h : n < fuel) (hn : n ≠ 0) :
    natDigitsGo fuel n acc = natDigitsW n ++ acc := by
  induction fuel generalizing n acc with
  | zero => omega
  | succ fuel ih =>
    rw [natDigitsGo, if_neg hn, natDigitsW]
    by_cases h10 : n < 10
    · rw [dif_pos h10]
      have hdiv : n / 10 = 0 := Nat.div_eq_of_lt h10
      rw [hdiv, natDigitsGo_zero]
      simp [Nat.mod_eq_of_lt h10]
    · rw [dif_neg h10]
      rw [ih (n / 10) _ (by omega) (by omega)]
      simp

theorem natDigits_eq_natDigitsW (n : Nat) : natDigits n = natDigitsW n := by
  by_cases h : n = 0
  · subst h
    rw [natDigits, if_pos rfl, natDigitsW]
    simp
  · rw [natDigits, if_neg h, natDigitsGo_eq (n + 1) n [] (by omega) h, List.append_nil]

/-- Numeric value of a list of ASCII digit bytes, read left to right. -/
def readNat (l : List UInt8) : Nat :=
  l.foldl (fun a c => a * 10 + (c.toNat - 48)) 0

theorem UInt8.toNat_ofNat_small (n : Nat) (h : n < 256) : (UInt8.ofNat n).toNat = n := by
  simp [UInt8.toNat, UInt8.ofNat, Nat.mod_eq_of_lt h]

/-- `readNat` inverts `natDigitsW`. -/
theorem readNat_natDigitsW (n : Nat) : readNat (natDigitsW n) = n := by
  induction n using Nat.strong_induction_on with
  | _ n ih =>
    rw [natDigitsW]
    by_cases h : n < 10
    · rw [dif_pos h]
      simp [readNat, UInt8.toNat_ofNat_small (48 + n) (by omega)]
    · rw [dif_neg h]
      have hrec := ih (n / 10) (Nat.div_lt_self (by omega) (by omega))
      simp [readNat, List.foldl_append] at hrec ⊢
      rw [hrec]
      have : (UInt8.ofNat (48 + n % 10)).toNat = 48 + n % 10 :=
        UInt8.toNat_ofNat_small _ (by omega)
      rw [this]
      omega

theorem readNat_natDigits (n : Nat) : readNat (natDigits n) = n := by
  rw [natDigits_eq_natDigitsW]; exact readNat_natDigitsW n

/-- Every byte of `natDigitsW n` is an ASCII digit. -/
theorem natDigitsW_digits (n : Nat) :
    ∀ b ∈ natDigitsW n, 48 ≤ b.toNat ∧ b.toNat ≤ 57 := by
  induction n using Nat.strong_induction_on with
  | _ n ih =>
    rw [natDigitsW]
    by_cases h : n < 10
    · rw [dif_pos h]
      intro b hb
      simp at hb
      subst hb
      rw [UInt8.toNat_ofNat_small _ (by omega)]
      omega
    · rw [dif_neg h]
      intro b hb
      rcases List.mem_append.mp hb with h1 | h2
      · exact ih (n / 10) (Nat.div_lt_self (by omega) (by omega)) b h1
      · simp at h2
        subst h2
        rw [UInt8.toNat_ofNat_small _ (by omega)]
        omega

/-! ## CRLF scanning -/

/-- `true` iff the byte list contains no CR LF pair. -/
def noCRLF : List UInt8 → Bool
  | [] => true
  | [_] => true
  | a :: b :: rest => !(a = 13 && b = 10) && noCRLF (b :: rest)

/-- Index of the first CR LF pair in a byte list (the scan the decoder
performs to delimit a line-oriented frame body). -/
def findCRLF : List UInt8 → Option Nat
  | [] => none
  | [_] => none
  | a :: b :: rest =>
    if a = 13 && b = 10 then some 0
    else (findCRLF (b :: rest)).map (· + 1)

theorem findCRLF_append (body rest : List UInt8) (h : noCRLF body = true) :
    findCRLF (body ++ 13 :: 10 :: rest) = some body.length := by
  induction body with
  | nil =>
    show findCRLF (13 :: 10 :: rest) = some 0
    rw [findCRLF, if_pos (by decide)]
  | cons a body ih =>
    cases body with
    | nil =>
      show findCRLF (a :: 13 :: 10 :: rest) = some 1
      have h2 : findCRLF (13 :: 10 :: rest) = some 0 := by
        rw [findCRLF, if_pos (by decide)]
      rw [findCRLF]
      have hcond : (decide (a = 13) && decide ((13 : UInt8) = 10)) = false := by
        have : decide ((13 : UInt8) = 10) = false := by decide
        simp [this]
      rw [if_neg (by simp [hcond]), h2]
      rfl
    | cons b body' =>
      simp only [noCRLF, Bool.and_eq_true, Bool.not_eq_true'] at h
      have hih := ih h.2
      show findCRLF (a :: b :: (body' ++ 13 :: 10 :: rest)) = some (a :: b :: body').length
      rw [findCRLF, if_neg (by simp [h.1])]
      simp only [List.cons_append] at hih
      rw [hih]
      rfl

/-- A list of non-CR bytes contains no CR LF pair. -/
theorem noCRLF_of_no13 (l : List UInt8) (h : ∀ b ∈ l, b ≠ 13) : noCRLF l = true := by
  induction l with
  | nil => rfl
  | cons a l ih =>
    cases l with
    | nil => rfl
    | cons b l' =>
      simp only [noCRLF, Bool.and_eq_true, Bool.not_eq_true']
      constructor
      · have := h a (by simp)
        simp [this]
      · exact ih (fun b hb => h b (by simp [hb]))

/-! ## Decimal text parsing (modelled host numeric parsers) -/

/-- `true` iff the byte is an ASCII decimal digit. -/
def isDigit (b : UInt8) : Bool := 48 ≤ b && b ≤ 57

/-- Modelled from the spec: the host's standard signed-integer parser
(`i64::from_str`) applied to a frame body — an optional `+` or `-` sign
followed by at least one decimal digit, nothing else.  The i64 range check is
not modelled; the frame model's Integer payload is an unbounded `Int`. -/
def parseIntBytes (l : List UInt8) : Option Int :=
  match l with
  | [] => none
  | b :: rest =>
    if b = 43 then
      if rest ≠ [] && rest.all isDigit then some (readNat rest : Int) else none
    else if b = 45 then
      if rest ≠ [] && rest.all isDigit then some (-(readNat rest : Int)) else none
    else
      if (b :: rest).all isDigit then some (readNat (b :: rest) : Int) else none

/-- Decimal digit bytes of an `i64` value, as `format!("{}")` renders it
(a `-` sign for negative values, plain digits otherwise). -/
def intRepr (n : Int) : List UInt8 :=
  if n < 0 then 45 :: natDigits n.natAbs else natDigits n.natAbs

theorem natDigits_ne_nil (n : Nat) : natDigits n ≠ [] := by
  rw [natDigits_eq_natDigitsW, natDigitsW]
  by_cases h : n < 10
  · rw [dif_pos h]; simp
  · rw [dif_neg h]; simp

theorem isDigit_of_toNat {b : UInt8} (h1 : 48 ≤ b.toNat) (h2 : b.toNat ≤ 57) :
    isDigit b = true := by
  simp only [isDigit, Bool.and_eq_true, decide_eq_true_eq, UInt8.le_def, BitVec.le_def]
  simp only [UInt8.toNat] at h1 h2
  constructor <;> simp <;> omega

theorem natDigits_all_digits (n : Nat) : (natDigits n).all isDigit = true := by
  rw [natDigits_eq_natDigitsW, List.all_eq_true]
  intro b hb
  have h := natDigitsW_digits n b hb
  exact isDigit_of_toNat h.1 h.2

theorem natDigits_no13 (n : Nat) : ∀ b ∈ natDigits n, b ≠ 13 := by
  rw [natDigits_eq_natDigitsW]
  intro b hb
  have h := natDigitsW_digits n b hb
  intro hcontra
  subst hcontra
  simp [UInt8.toNat] at h

/-- The host integer parser inverts the encoder's integer body. -/
theorem parseIntBytes_roundtrip (n : Int) :
    parseIntBytes ((if n < 0 then [] else [43]) ++ intRepr n) = some n := by
  by_cases h : n < 0
  · rw [if_pos h]
    have h1 : intRepr n = 45 :: natDigits n.natAbs := by rw [intRepr, if_pos h]
    rw [h1]
    show parseIntBytes (45 :: natDigits n.natAbs) = some n
    rw [parseIntBytes]
    rw [if_neg (by decide), if_pos rfl]
    rw [if_pos (by simp [natDigits_ne_nil, natDigits_all_digits])]
    rw [readNat_natDigits]
    congr 1
    omega
  · rw [if_neg h]
    have h1 : intRepr n = natDigits n.natAbs := by rw [intRepr, if_neg h]
    rw [h1]
    show parseIntBytes (43 :: natDigits n.natAbs) = some n
    rw [parseIntBytes]
    rw [if_pos rfl]
    rw [if_pos (by simp [natDigits_ne_nil, natDigits_all_digits])]
    rw [readNat_natDigits]
    congr 1
    omega

/-! ## The f64 model

The encoder observes a Rust `f64` only through four operations: the comparison
`self < 0.0`, the test `self.abs() >= 1e8`, the rendering `format!("{}")`
(fixed-point `Display`) and the rendering `format!("{:e}")` (`LowerExp`,
scientific notation).  An `F64` records exactly those four observations; the
concrete values below instantiate them with the IEEE-754/Rust results for the
doubles the specification names. -/

structure F64 where
  /-- Result of the IEEE comparison `self < 0.0` (false for `-0.0` and NaN). -/
  ltZero : Bool
  /-- Result of the IEEE comparison `self.abs() >= 1e8` (false for NaN). -/
  absGe1e8 : Bool
  /-- UTF-8 bytes of `format!("{}", self)` — Rust's fixed-point rendering. -/
  display : List UInt8
  /-- UTF-8 bytes of `format!("{:e}", self)` — Rust's scientific rendering. -/
  lowerExp : List UInt8
  deriving DecidableEq, Repr

/-- The double body the encoder emits after the `,` tag: the scientific
rendering when `self.abs() >= 1e8`, otherwise the `Display` rendering with
an explicit `+` prepended when `self < 0.0` is false (mirroring
`impl RespEncode for f64` in `src/resp/encode.rs`). -/
def f64Body (d : F64) : List UInt8 :=
  if d.absGe1e8 then d.lowerExp else (if d.ltZero then [] else [43]) ++ d.display

/-! ### Modelled host float parser

The decoder is specified to parse a Double body with the host's standard float
parser (`f64::from_str`).  The model below parses the decimal-numeral grammar
(optional sign, digits with an optional fraction part, an optional `e`
exponent) and reconstructs the `F64` observation record of the parsed value by
exact decimal arithmetic.  It is faithful on every body the encoder produces
from a double whose `Display` rendering is a canonical decimal numeral; bodies
that are not decimal numerals (such as `+-0` or `+NaN`) are rejected. -/

/-- Strip one optional leading `+` or `-`, reporting whether it was `-`. -/
def splitSign (l : List UInt8) : Bool × List UInt8 :=
  match l with
  | b :: rest => if b = 43 then (false, rest) else if b = 45 then (true, rest) else (false, l)
  | [] => (false, [])

/-- Longest digit prefix and the remainder. -/
def spanDigits (l : List UInt8) : List UInt8 × List UInt8 :=
  (l.takeWhile isDigit, l.dropWhile isDigit)

/-- Remove factors of ten from `n` while the decimal exponent is negative
(normalising a fraction such as `1230 * 10^-2` to `123 * 10^-1`). -/
def normFrac : Nat → Nat → Int → Nat × Int
  | 0, n, ex => (n, ex)
  | fuel + 1, n, ex =>
    if ex < 0 ∧ n % 10 = 0 ∧ n ≠ 0 then normFrac fuel (n / 10) (ex + 1) else (n, ex)

/-- Remove all factors of ten from `n`, tracking the decimal exponent. -/
def normAll : Nat → Nat → Int → Nat × Int
  | 0, n, ex => (n, ex)
  | fuel + 1, n, ex =>
    if n % 10 = 0 ∧ n ≠ 0 then normAll fuel (n / 10) (ex + 1) else (n, ex)

/-- Whether `n * 10^ex ≥ 10^8`, by exact arithmetic. -/
def absGe1e8Bool (n : Nat) (ex : Int) : Bool :=
  if 0 ≤ ex then decide (10 ^ 8 ≤ n * 10 ^ ex.toNat)
  else decide (10 ^ (8 + (-ex).toNat) ≤ n)

/-- Rust's fixed-point `Display` rendering of the value `± n * 10^ex`
(never scientific; shortest fraction; `-0` keeps its sign). -/
def renderFixed (neg : Bool) (n : Nat) (ex : Int) : List UInt8 :=
  let sgn : List UInt8 := if neg then [45] else []
  if n = 0 then sgn ++ [48]
  else
    let p := normFrac (-ex).toNat n ex
    let m := p.1
    let e2 := p.2
    if 0 ≤ e2 then sgn ++ natDigits (m * 10 ^ e2.toNat)
    else
      let k := (-e2).toNat
      let ds := natDigits m
      if k < ds.length then
        sgn ++ ds.take (ds.length - k) ++ 46 :: ds.drop (ds.length - k)
      else
        sgn ++ 48 :: 46 :: (List.replicate (k - ds.length) 48 ++ ds)

/-- Rust's `LowerExp` rendering of the value `± n * 10^ex`
(`d.ddd…e±k` with no trailing zeros and no `+` on the exponent). -/
def renderSci (neg : Bool) (n : Nat) (ex : Int) : List UInt8 :=
  let sgn : List UInt8 := if neg then [45] else []
  if n = 0 then sgn ++ [48, 101, 48]
  else
    let p := normAll n n ex
    let m := p.1
    let e2 := p.2
    let ds := natDigits m
    let e10 : Int := e2 + (ds.length - 1 : Nat)
    sgn ++ ds.take 1 ++ (if ds.length = 1 then [] else 46 :: ds.drop 1) ++ 101 :: intRepr e10

/-- The `F64` observation record of the host double parsed from the numeral
`± intDigits.fracDigits e exponent` (the sign of zero is not observable
through `self < 0.0`, matching IEEE `-0.0 < 0.0 = false`). -/
def mkF64 (neg : Bool) (ip fp : List UInt8) (e : Int) : F64 :=
  let n := readNat (ip ++ fp)
  let ex : Int := e - fp.length
  { ltZero := neg && decide (n ≠ 0)
    absGe1e8 := absGe1e8Bool n ex
    display := renderFixed neg n ex
    lowerExp := renderSci neg n ex }

/-- Modelled from the spec: the host float parser (`f64::from_str`) applied to
a Double frame body, observed through the fields of `F64`.  Accepts exactly
the decimal-numeral grammar: one optional sign, then digits with an optional
`.` fraction (at least one digit overall), then an optional `e` exponent. -/
def parseF64Body (l : List UInt8) : Option F64 :=
  let s := splitSign l
  let neg := s.1
  let d1 := spanDigits s.2
  let ip := d1.1
  match d1.2 with
  | [] => if ip = [] then none else some (mkF64 neg ip [] 0)
  | c :: r2 =>
    if c = 46 then
      let d2 := spanDigits r2
      let fp := d2.1
      match d2.2 with
      | [] => if ip = [] ∧ fp = [] then none else some (mkF64 neg ip fp 0)
      | c2 :: r4 =>
        if c2 = 101 then
          if ip = [] ∧ fp = [] then none
          else
            match parseIntBytes r4 with
            | some e => some (mkF64 neg ip fp e)
            | none => none
        else none
    else if c = 101 then
      if ip = [] then none
      else
        match parseIntBytes r2 with
        | some e => some (mkF64 neg ip [] e)
        | none => none
    else none

/-! ### Concrete doubles named by the specification

Each record instantiates the four observations with the IEEE-754/Rust results
for that double. -/

/-- The double `1e8`: `1e8 < 0.0` is false, `1e8.abs() >= 1e8` is true,
`format!("{}")` gives `100000000`, `format!("{:e}")` gives `1e8`. -/
def f64OneE8 : F64 := ⟨false, true, strB "100000000", strB "1e8"⟩

/-- The double `1.23456`: positive, below the 1e8 threshold. -/
def f64Pos1_23456 : F64 := ⟨false, false, strB "1.23456", strB "1.23456e0"⟩

/-- The double `-123.456`: `-123.456 < 0.0` is true, below the threshold. -/
def f64Neg123_456 : F64 := ⟨true, false, strB "-123.456", strB "-1.23456e2"⟩

/-- The double `1234.567` (the map-encoding example value). -/
def f64Of1234_567 : F64 := ⟨false, false, strB "1234.567", strB "1.234567e3"⟩

/-- The double `-0.0`: IEEE gives `-0.0 < 0.0 = false` and
`(-0.0).abs() >= 1e8 = false`, while `format!("{}", -0.0)` gives `-0`. -/
def f64NegZero : F64 := ⟨false, false, strB "-0", strB "-0e0"⟩

/-- The double `f64::NAN`: both IEEE comparisons are false and
`format!("{}")` gives `NaN`. -/
def f64NaN : F64 := ⟨false, false, strB "NaN", strB "NaN"⟩

/-! ## The frame model (`RespFrame`, `src/resp/mod.rs`)

`String` payloads are UTF-8 byte lists, `Vec<u8>` payloads are byte lists,
`i64` is `Int`, `f64` is `F64`.  The `BTreeMap<String, RespFrame>` of the
`Map` variant is modelled as its iteration order: an association list whose
keys are strictly increasing in byte-lexicographic order (maintained by
`mapInsert` below, the model of `BTreeMap::insert`). -/

inductive RespFrame where
  | SimpleString (s : List UInt8)
  | Error (s : List UInt8)
  | Integer (n : Int)
  | BulkString (b : List UInt8)
  | NullBulkString
  | Arrays (xs : List RespFrame)
  | Null
  | NullArray
  | Boolean (b : Bool)
  | Double (d : F64)
  | Map (m : List (List UInt8 × RespFrame))
  | Set (xs : List RespFrame)

/-- Byte-lexicographic strict order on byte lists — the `Ord` instance of
Rust `String`/`[u8]` that `BTreeMap` keys are sorted by. -/
def bytesLt : List UInt8 → List UInt8 → Bool
  | [], [] => false
  | [], _ :: _ => true
  | _ :: _, [] => false
  | a :: as, b :: bs => if a < b then true else if a = b then bytesLt as bs else false

/-- `BTreeMap::insert` on the sorted-association-list model: place the new
pair at its ordered position, replacing an equal key. -/
def mapInsert (k : List UInt8) (v : RespFrame) :
    List (List UInt8 × RespFrame) → List (List UInt8 × RespFrame)
  | [] => [(k, v)]
  | (k', v') :: rest =>
    if bytesLt k k' then (k, v) :: (k', v') :: rest
    else if k = k' then (k, v) :: rest
    else (k', v') :: mapInsert k v rest

/-- `SimpleString::new` (`src/resp/mod.rs`): total, no validation of the text. -/
def simpleStringNew (s : List UInt8) : RespFrame := RespFrame.SimpleString s

/-- `SimpleError::new` (`src/resp/mod.rs`): total, no validation of the text. -/
def simpleErrorNew (s : List UInt8) : RespFrame := RespFrame.Error s

/-! ## The encoder (`src/resp/encode.rs`)

One equation per `RespEncode` impl; `encodeL` and `encodeM` are the
element/pair loops of the aggregate impls. -/

mutual

/-- `RespEncode::encode`, variant by variant, translated from
`src/resp/encode.rs`. -/
def encodeF : RespFrame → List UInt8
  | .SimpleString s => 43 :: s ++ crlf
  | .Error s => 45 :: s ++ crlf
  | .Integer n => 58 :: ((if n < 0 then [] else [43]) ++ intRepr n ++ crlf)
  | .BulkString b => 36 :: (natDigits b.length ++ crlf ++ b ++ crlf)
  | .NullBulkString => [36, 45, 49, 13, 10]
  | .Arrays xs => 42 :: (natDigits xs.length ++ crlf ++ encodeL xs)
  | .Null => [95, 13, 10]
  | .NullArray => [42, 45, 49, 13, 10]
  | .Boolean b => 35 :: ((if b then [116] else [102]) ++ crlf)
  | .Double d => 44 :: (f64Body d ++ crlf)
  | .Map m => 37 :: (natDigits m.length ++ crlf ++ encodeM m)
  | .Set xs => 126 :: (natDigits xs.length ++ crlf ++ encodeL xs)

/-- The element loop of the `RespArray`/`RespSet` impls: concatenate the
encodings in sequence order. -/
def encodeL : List RespFrame → List UInt8
  | [] => []
  | x :: xs => encodeF x ++ encodeL xs

/-- The pair loop of the `RespMap` impl: each key as a SimpleString encoding,
then the value's encoding. -/
def encodeM : List (List UInt8 × RespFrame) → List UInt8
  | [] => []
  | (k, v) :: rest => (43 :: k ++ crlf) ++ encodeF v ++ encodeM rest

end

/-! ## The decoder (modelled from the spec)

`mod.rs` declares `mod decode;` but the decoder source is not among the
sources under verification; everything below the error taxonomy is therefore
modelled from §4.3, §6 and §7 of the specification: first-byte dispatch over
the tag table, CRLF scanning for line-oriented variants, decimal headers with
the `-1` null sentinels for size-prefixed variants, recursive element/pair
decoding for aggregates, and `NotComplete` for insufficient data. -/

/-- The error taxonomy of `RespError` (`src/resp/mod.rs`); conversion-error
payloads carry the offending body bytes. -/
inductive RespError where
  | InvalidFrame (body : List UInt8)
  | InvalidFrameType (tag : List UInt8)
  | InvalidFrameLength (n : Int)
  | NotComplete
  | ParseIntError (body : List UInt8)
  | ParseFloatError (body : List UInt8)
  deriving DecidableEq, Repr

/-- Modelled from the spec: the aggregate element loop — decode `n` frames in
sequence with `dec`, accumulating the consumed byte count; any failure of a
nested decode propagates unchanged. -/
def decodeMany (dec : List UInt8 → Except RespError (RespFrame × Nat)) :
    Nat → List UInt8 → Except RespError (List RespFrame × Nat)
  | 0, _ => .ok ([], 0)
  | n + 1, buf =>
    match dec buf with
    | .ok (f, c) =>
      match decodeMany dec n (buf.drop c) with
      | .ok (fs, c') => .ok (f :: fs, c + c')
      | .error e => .error e
    | .error e => .error e

/-- Modelled from the spec: the map pair loop — each pair is a SimpleString
key (tag `+`, text to CRLF) followed by a value decoded with `dec`. -/
def decodePairsGo (dec : List UInt8 → Except RespError (RespFrame × Nat)) :
    Nat → List UInt8 → Except RespError (List (List UInt8 × RespFrame) × Nat)
  | 0, _ => .ok ([], 0)
  | n + 1, buf =>
    match buf with
    | [] => .error .NotComplete
    | t :: rest =>
      if t = 43 then
        match findCRLF rest with
        | none => .error .NotComplete
        | some i =>
          match dec (rest.drop (i + 2)) with
          | .ok (v, c) =>
            match decodePairsGo dec n (rest.drop (i + 2 + c)) with
            | .ok (ps, c') => .ok ((rest.take i, v) :: ps, i + 3 + c + c')
            | .error e => .error e
          | .error e => .error e
      else .error (.InvalidFrameType [t])

/-- Modelled from the spec: one frame decoded off the front of the buffer,
returning the frame and the byte count consumed.  The first byte selects the
variant by the tag table; an unrecognized tag is `InvalidFrameType`.  `fuel`
bounds the aggregate nesting depth (`decode` supplies a sufficient amount). -/
def decodeFuel : Nat → List UInt8 → Except RespError (RespFrame × Nat)
  | 0, _ => .error .NotComplete
  | fuel + 1, buf =>
    match buf with
    | [] => .error .NotComplete
    | t :: rest =>
      if t = 43 then
        match findCRLF rest with
        | none => .error .NotComplete
        | some i => .ok (.SimpleString (rest.take i), i + 3)
      else if t = 45 then
        match findCRLF rest with
        | none => .error .NotComplete
        | some i => .ok (.Error (rest.take i), i + 3)
      else if t = 58 then
        match findCRLF rest with
        | none => .error .NotComplete
        | some i =>
          match parseIntBytes (rest.take i) with
          | some n => .ok (.Integer n, i + 3)
          | none => .error (.ParseIntError (rest.take i))
      else if t = 35 then
        match findCRLF rest with
        | none => .error .NotComplete
        | some i =>
          if rest.take i = [116] then .ok (.Boolean true, i + 3)
          else if rest.take i = [102] then .ok (.Boolean false, i + 3)
          else .error (.InvalidFrame (rest.take i))
      else if t = 44 then
        match findCRLF rest with
        | none => .error .NotComplete
        | some i =>
          match parseF64Body (rest.take i) with
          | some d => .ok (.Double d, i + 3)
          | none => .error (.ParseFloatError (rest.take i))
      else if t = 95 then
        match findCRLF rest with
        | none => .error .NotComplete
        | some 0 => .ok (.Null, 3)
        | some (i + 1) => .error (.InvalidFrame (rest.take (i + 1)))
      else if t = 36 then
        match findCRLF rest with
        | none => .error .NotComplete
        | some i =>
          match parseIntBytes (rest.take i) with
          | none => .error (.InvalidFrame (rest.take i))
          | some len =>
            if len = -1 then .ok (.NullBulkString, i + 3)
            else if len < 0 then .error (.InvalidFrameLength len)
            else
              let n := len.toNat
              let body := rest.drop (i + 2)
              if body.length < n + 2 then .error .NotComplete
              else if (body.drop n).take 2 = crlf then
                .ok (.BulkString (body.take n), i + 3 + n + 2)
              else .error (.InvalidFrame (body.take n))
      else if t = 42 then
        match findCRLF rest with
        | none => .error .NotComplete
        | some i =>
          match parseIntBytes (rest.take i) with
          | none => .error (.InvalidFrame (rest.take i))
          | some len =>
            if len = -1 then .ok (.NullArray, i + 3)
            else if len < 0 then .error (.InvalidFrameLength len)
            else
              match decodeMany (decodeFuel fuel) len.toNat (rest.drop (i + 2)) with
              | .ok (xs, c) => .ok (.Arrays xs, i + 3 + c)
              | .error e => .error e
      else if t = 126 then
        match findCRLF rest with
        | none => .error .NotComplete
        | some i =>
          match parseIntBytes (rest.take i) with
          | none => .error (.InvalidFrame (rest.take i))
          | some len =>
            if len < 0 then .error (.InvalidFrameLength len)
            else
              match decodeMany (decodeFuel fuel) len.toNat (rest.drop (i + 2)) with
              | .ok (xs, c) => .ok (.Set xs, i + 3 + c)
              | .error e => .error e
      else if t = 37 then
        match findCRLF rest with
        | none => .error .NotComplete
        | some i =>
          match parseIntBytes (rest.take i) with
          | none => .error (.InvalidFrame (rest.take i))
          | some len =>
            if len < 0 then .error (.InvalidFrameLength len)
            else
              match decodePairsGo (decodeFuel fuel) len.toNat (rest.drop (i + 2)) with
              | .ok (ps, c) =>
                .ok (.Map (ps.foldl (fun acc p => mapInsert p.1 p.2 acc) []), i + 3 + c)
              | .error e => .error e
      else .error (.InvalidFrameType [t])

/-- Modelled from the spec: decode one frame off the front of the buffer.
The fuel `buf.length + 1` always suffices: a nesting level costs at least one
buffer byte, and `decode_encode` discharges the bound for encoder output. -/
def decode (buf : List UInt8) : Except RespError (RespFrame × Nat) :=
  decodeFuel (buf.length + 1) buf

/-! ## Constructible well-formed frames

The frames the host program can build carry two invariants that the Lean
model must state explicitly: `BTreeMap` keeps map keys strictly ascending,
and a Rust `f64`'s renderings are produced by the host formatter (canonical
decimal numerals that its parser reads back, which excludes the degenerate
`-0.0`/NaN renderings).  Simple-string texts containing a CRLF pair are
constructible in Rust but break the framing (§9 of the spec); `wfF` records
their absence where the round-trip law needs it. -/

mutual

/-- Well-formedness of a frame for the round-trip law. -/
def wfF : RespFrame → Bool
  | .SimpleString s => noCRLF s
  | .Error s => noCRLF s
  | .Integer _ => true
  | .BulkString _ => true
  | .NullBulkString => true
  | .Arrays xs => wfL xs
  | .Null => true
  | .NullArray => true
  | .Boolean _ => true
  | .Double d => noCRLF (f64Body d) && decide (parseF64Body (f64Body d) = some d)
  | .Map m => wfM m
  | .Set xs => wfL xs

def wfL : List RespFrame → Bool
  | [] => true
  | x :: xs => wfF x && wfL xs

def wfM : List (List UInt8 × RespFrame) → Bool
  | [] => true
  | (k, v) :: rest =>
    noCRLF k && wfF v && rest.all (fun p => bytesLt k p.1) && wfM rest

end

mutual

/-- Aggregate nesting depth of a frame (the fuel the decoder needs). -/
def depthF : RespFrame → Nat
  | .Arrays xs => depthL xs + 1
  | .Map m => depthM m + 1
  | .Set xs => depthL xs + 1
  | _ => 1

def depthL : List RespFrame → Nat
  | [] => 0
  | x :: xs => max (depthF x) (depthL xs)

def depthM : List (List UInt8 × RespFrame) → Nat
  | [] => 0
  | (_, v) :: rest => max (depthF v) (depthM rest)

end

/-! ## Order facts about `bytesLt` and `mapInsert` -/

theorem uint8_lt_irrefl (x : UInt8) : ¬ x < x := by
  rw [UInt8.lt_def, BitVec.lt_def]; omega

theorem uint8_lt_asymm {x y : UInt8} (h : x < y) : ¬ y < x := by
  rw [UInt8.lt_def, BitVec.lt_def] at h ⊢; omega

theorem bytesLt_irrefl (a : List UInt8) : bytesLt a a = false := by
  induction a with
  | nil => rfl
  | cons x a ih =>
    rw [bytesLt, if_neg (uint8_lt_irrefl x), if_pos rfl]
    exact ih

theorem bytesLt_asymm : ∀ a b : List UInt8, bytesLt a b = true → bytesLt b a = false := by
  intro a
  induction a with
  | nil =>
    intro b h
    cases b with
    | nil => simp [bytesLt] at h
    | cons y b => rfl
  | cons x a ih =>
    intro b h
    cases b with
    | nil => simp [bytesLt] at h
    | cons y b =>
      rw [bytesLt] at h ⊢
      by_cases hxy : x < y
      · rw [if_neg (uint8_lt_asymm hxy),
          if_neg (by intro hc; subst hc; exact uint8_lt_irrefl y hxy)]
      · rw [if_neg hxy] at h
        by_cases hxe : x = y
        · subst hxe
          rw [if_pos rfl] at h
          rw [if_neg hxy, if_pos rfl]
          exact ih b h
        · rw [if_neg hxe] at h
          simp at h

/-- Inserting a key greater than every key of a sorted prefix appends. -/
theorem mapInsert_append (k : List UInt8) (v : RespFrame) :
    ∀ acc : List (List UInt8 × RespFrame),
    (∀ p ∈ acc, bytesLt p.1 k = true) →
    mapInsert k v acc = acc ++ [(k, v)] := by
  intro acc
  induction acc with
  | nil => intro _; rfl
  | cons p acc ih =>
    intro h
    obtain ⟨k', v'⟩ := p
    have h1 : bytesLt k' k = true := h (k', v') (by simp)
    rw [mapInsert]
    rw [if_neg (by simp [bytesLt_asymm k' k h1])]
    rw [if_neg (by intro hc; subst hc; rw [bytesLt_irrefl] at h1; exact Bool.false_ne_true h1)]
    rw [ih (fun q hq => h q (by simp [hq]))]
    simp

/-- Folding `BTreeMap::insert` over pairs whose keys already ascend (each key
below all later keys) rebuilds exactly that association list. -/
theorem foldl_mapInsert_acc :
    ∀ (m : List (List UInt8 × RespFrame)) (acc : List (List UInt8 × RespFrame)),
    wfM m = true →
    (∀ p ∈ acc, ∀ q ∈ m, bytesLt p.1 q.1 = true) →
    m.foldl (fun acc p => mapInsert p.1 p.2 acc) acc = acc ++ m := by
  intro m
  induction m with
  | nil => intro acc _ _; simp
  | cons kv m' ih =>
    intro acc hwf hacc
    obtain ⟨k, v⟩ := kv
    rw [wfM] at hwf
    simp only [Bool.and_eq_true] at hwf
    rw [List.foldl_cons]
    have hins : mapInsert k v acc = acc ++ [(k, v)] :=
      mapInsert_append k v acc (fun p hp => hacc p hp (k, v) (by simp))
    rw [hins]
    rw [ih (acc ++ [(k, v)]) hwf.2]
    · simp
    · intro p hp q hq
      rcases List.mem_append.mp hp with h1 | h2
      · exact hacc p h1 q (by simp [hq])
      · simp at h2
        subst h2
        have := hwf.1.2
        rw [List.all_eq_true] at this
        exact this q hq

/-! ## Generic loop round-trips -/

theorem decodeMany_encode (dec : List UInt8 → Except RespError (RespFrame × Nat)) :
    ∀ (xs : List RespFrame) (rest : List UInt8),
    (∀ x ∈ xs, ∀ r, dec (encodeF x ++ r) = .ok (x, (encodeF x).length)) →
    decodeMany dec xs.length (encodeL xs ++ rest) = .ok (xs, (encodeL xs).length) := by
  intro xs
  induction xs with
  | nil => intro rest _; rw [encodeL]; rfl
  | cons x xs ih =>
    intro rest h
    have hx := h x (by simp) (encodeL xs ++ rest)
    have hdrop : (encodeF x ++ (encodeL xs ++ rest)).drop (encodeF x).length =
        encodeL xs ++ rest := List.drop_left _ _
    have hih := ih rest (fun y hy r => h y (by simp [hy]) r)
    show decodeMany dec (xs.length + 1) (encodeL (x :: xs) ++ rest) = _
    rw [encodeL, List.append_assoc]
    simp only [decodeMany, hx, hdrop, hih]
    simp [encodeL]

theorem decodePairsGo_encode (dec : List UInt8 → Except RespError (RespFrame × Nat)) :
    ∀ (m : List (List UInt8 × RespFrame)) (rest : List UInt8),
    (∀ p ∈ m, ∀ r, dec (encodeF p.2 ++ r) = .ok (p.2, (encodeF p.2).length)) →
    (∀ p ∈ m, noCRLF p.1 = true) →
    decodePairsGo dec m.length (encodeM m ++ rest) = .ok (m, (encodeM m).length) := by
  intro m
  induction m with
  | nil => intro rest _ _; rw [encodeM]; rfl
  | cons kv m' ih =>
    intro rest hv hk
    obtain ⟨k, v⟩ := kv
    have hfind := findCRLF_append k (encodeF v ++ (encodeM m' ++ rest)) (hk (k, v) (by simp))
    have htake : (k ++ 13 :: 10 :: (encodeF v ++ (encodeM m' ++ rest))).take k.length = k := by
      rw [show k ++ 13 :: 10 :: (encodeF v ++ (encodeM m' ++ rest)) =
          k ++ (13 :: 10 :: (encodeF v ++ (encodeM m' ++ rest))) from rfl]
      exact List.take_left _ _
    have hdrop : (k ++ 13 :: 10 :: (encodeF v ++ (encodeM m' ++ rest))).drop (k.length + 2) =
        encodeF v ++ (encodeM m' ++ rest) := by
      rw [show k ++ 13 :: 10 :: (encodeF v ++ (encodeM m' ++ rest)) =
          (k ++ [13, 10]) ++ (encodeF v ++ (encodeM m' ++ rest)) by simp]
      exact List.drop_left' (by simp)
    have hvv := hv (k, v) (by simp) (encodeM m' ++ rest)
    have hdrop2 : (k ++ 13 :: 10 :: (encodeF v ++ (encodeM m' ++ rest))).drop
        (k.length + 2 + (encodeF v).length) = encodeM m' ++ rest := by
      rw [show k ++ 13 :: 10 :: (encodeF v ++ (encodeM m' ++ rest)) =
          ((k ++ [13, 10]) ++ encodeF v) ++ (encodeM m' ++ rest) by simp]
      exact List.drop_left' (by simp; omega)
    have hih := ih rest (fun p hp r => hv p (by simp [hp]) r) (fun p hp => hk p (by simp [hp]))
    have hbuf : encodeM ((k, v) :: m') ++ rest =
        43 :: (k ++ 13 :: 10 :: (encodeF v ++ (encodeM m' ++ rest))) := by
      rw [encodeM]; simp [crlf]
    show decodePairsGo dec (m'.length + 1) (encodeM ((k, v) :: m') ++ rest) = _
    rw [hbuf]
    simp only [decodePairsGo, if_pos rfl, hfind, hdrop, hvv, hdrop2, hih, htake]
    have hlen : (encodeM ((k, v) :: m')).length =
        k.length + 3 + ((encodeF v).length + (encodeM m').length) := by
      rw [encodeM]; simp [crlf]; omega
    rw [hlen, if_pos trivial]
    simp only [Except.ok.injEq, Prod.mk.injEq]
    exact ⟨trivial, by omega⟩

/-! ## Depth is bounded by encoded length -/

theorem natDigits_len_pos (n : Nat) : 0 < (natDigits n).length := by
  cases h : natDigits n with
  | nil => exact absurd h (natDigits_ne_nil n)
  | cons a l => simp

mutual

theorem depthF_le_len (v : RespFrame) : depthF v ≤ (encodeF v).length := by
  cases v with
  | Arrays xs =>
    have h := depthL_le_len xs
    have hd := natDigits_len_pos xs.length
    simp [depthF, encodeF, crlf]
    omega
  | Set xs =>
    have h := depthL_le_len xs
    have hd := natDigits_len_pos xs.length
    simp [depthF, encodeF, crlf]
    omega
  | Map m =>
    have h := depthM_le_len m
    have hd := natDigits_len_pos m.length
    simp [depthF, encodeF, crlf]
    omega
  | SimpleString s => simp [depthF, encodeF, crlf]
  | Error s => simp [depthF, encodeF, crlf]
  | Integer n => simp [depthF, encodeF, crlf]
  | BulkString b => simp [depthF, encodeF, crlf]
  | NullBulkString => simp [depthF, encodeF]
  | Null => simp [depthF, encodeF]
  | NullArray => simp [depthF, encodeF]
  | Boolean b => simp [depthF, encodeF, crlf]
  | Double d => simp [depthF, encodeF, crlf]

theorem depthL_le_len (xs : List RespFrame) : depthL xs ≤ (encodeL xs).length := by
  cases xs with
  | nil => simp [depthL, encodeL]
  | cons x xs =>
    have h1 := depthF_le_len x
    have h2 := depthL_le_len xs
    simp [depthL, encodeL]
    omega

theorem depthM_le_len (m : List (List UInt8 × RespFrame)) :
    depthM m ≤ (encodeM m).length := by
  cases m with
  | nil => simp [depthM, encodeM]
  | cons kv m =>
    obtain ⟨k, v⟩ := kv
    have h1 := depthF_le_len v
    have h2 := depthM_le_len m
    simp [depthM, encodeM, crlf]
    omega

end

theorem depthF_le_depthL {x : RespFrame} {xs : List RespFrame} (h : x ∈ xs) :
    depthF x ≤ depthL xs := by
  induction xs with
  | nil => cases h
  | cons y ys ih =>
    rcases List.mem_cons.mp h with h1 | h2
    · subst h1; simp [depthL]
    · have := ih h2; simp [depthL]; omega

theorem depthF_le_depthM {p : List UInt8 × RespFrame}
    {m : List (List UInt8 × RespFrame)} (h : p ∈ m) : depthF p.2 ≤ depthM m := by
  induction m with
  | nil => cases h
  | cons q m ih =>
    obtain ⟨k, v⟩ := q
    rcases List.mem_cons.mp h with h1 | h2
    · subst h1; simp [depthM]
    · have := ih h2; simp [depthM]; omega

/-! ## Well-formedness projections -/

theorem wfL_mem {xs : List RespFrame} (h : wfL xs = true) :
    ∀ x ∈ xs, wfF x = true := by
  induction xs with
  | nil => intro x hx; cases hx
  | cons y ys ih =>
    rw [wfL, Bool.and_eq_true] at h
    intro x hx
    rcases List.mem_cons.mp hx with h1 | h2
    · subst h1; exact h.1
    · exact ih h.2 x h2

theorem wfM_mem_val {m : List (List UInt8 × RespFrame)} (h : wfM m = true) :
    ∀ p ∈ m, wfF p.2 = true := by
  induction m with
  | nil => intro p hp; cases hp
  | cons q m ih =>
    obtain ⟨k, v⟩ := q
    rw [wfM] at h
    simp only [Bool.and_eq_true] at h
    intro p hp
    rcases List.mem_cons.mp hp with h1 | h2
    · subst h1; exact h.1.1.2
    · exact ih h.2 p h2

theorem wfM_mem_key {m : List (List UInt8 × RespFrame)} (h : wfM m = true) :
    ∀ p ∈ m, noCRLF p.1 = true := by
  induction m with
  | nil => intro p hp; cases hp
  | cons q m ih =>
    obtain ⟨k, v⟩ := q
    rw [wfM] at h
    simp only [Bool.and_eq_true] at h
    intro p hp
    rcases List.mem_cons.mp hp with h1 | h2
    · subst h1; exact h.1.1.1
    · exact ih h.2 p h2

/-! ## Header digit parsing -/

theorem isDigit_toNat {b : UInt8} (h : isDigit b = true) :
    48 ≤ b.toNat ∧ b.toNat ≤ 57 := by
  simp only [isDigit, Bool.and_eq_true, decide_eq_true_eq, UInt8.le_def, BitVec.le_def] at h
  simpa [UInt8.toNat] using h

theorem parseIntBytes_natDigits (n : Nat) : parseIntBytes (natDigits n) = some (n : Int) := by
  cases h : natDigits n with
  | nil => exact absurd h (natDigits_ne_nil n)
  | cons d ds =>
    have hall := natDigits_all_digits n
    rw [h] at hall
    rw [List.all_eq_true] at hall
    have hd := isDigit_toNat (hall d (by simp))
    have hd43 : ¬ d = 43 := by
      intro hc; subst hc
      simp [UInt8.toNat] at hd
    have hd45 : ¬ d = 45 := by
      intro hc; subst hc
      simp [UInt8.toNat] at hd
    rw [parseIntBytes, if_neg hd43, if_neg hd45,
      if_pos (by rw [List.all_eq_true]; exact hall)]
    rw [← h, readNat_natDigits]

/-- The integer body (sign then digits) contains no CR byte. -/
theorem noCRLF_intBody (n : Int) :
    noCRLF ((if n < 0 then [] else [43]) ++ intRepr n) = true := by
  apply noCRLF_of_no13
  intro b hb
  rcases List.mem_append.mp hb with h1 | h2
  · by_cases h : n < 0
    · rw [if_pos h] at h1; cases h1
    · rw [if_neg h] at h1
      simp at h1
      subst h1
      decide
  · rw [intRepr] at h2
    by_cases h : n < 0
    · rw [if_pos h] at h2
      rcases List.mem_cons.mp h2 with h3 | h4
      · subst h3; decide
      · exact natDigits_no13 _ b h4
    · rw [if_neg h] at h2
      exact natDigits_no13 _ b h2

theorem ok_pair_eq {f : RespFrame} {a b : Nat} (h : a = b) :
    (Except.ok (f, a) : Except RespError (RespFrame × Nat)) = .ok (f, b) := by rw [h]

/-! ## Further order facts for map-insertion order independence -/

theorem uint8_lt_trans {x y z : UInt8} (h1 : x < y) (h2 : y < z) : x < z := by
  rw [UInt8.lt_def, BitVec.lt_def] at h1 h2 ⊢
  omega

theorem bytesLt_trans : ∀ a b c : List UInt8,
    bytesLt a b = true → bytesLt b c = true → bytesLt a c = true := by
  intro a
  induction a with
  | nil =>
    intro b c hab hbc
    cases b with
    | nil => simp [bytesLt] at hab
    | cons y b =>
      cases c with
      | nil => simp [bytesLt] at hbc
      | cons z c => rfl
  | cons x a ih =>
    intro b c hab hbc
    cases b with
    | nil => simp [bytesLt] at hab
    | cons y b =>
      cases c with
      | nil => simp [bytesLt] at hbc
      | cons z c =>
        rw [bytesLt] at hab hbc ⊢
        by_cases hxy : x < y
        · by_cases hyz : y < z
          · rw [if_pos (uint8_lt_trans hxy hyz)]
          · rw [if_neg hyz] at hbc
            by_cases hye : y = z
            · subst hye
              rw [if_pos hxy]
            · rw [if_neg hye] at hbc
              simp at hbc
        · rw [if_neg hxy] at hab
          by_cases hxe : x = y
          · subst hxe
            rw [if_pos rfl] at hab
            by_cases hyz : x < z
            · rw [if_pos hyz]
            · rw [if_neg hyz] at hbc ⊢
              by_cases hye : x = z
              · rw [if_pos hye] at hbc ⊢
                subst hye
                exact ih b c hab hbc
              · rw [if_neg hye] at hbc
                simp at hbc
          · rw [if_neg hxe] at hab
            simp at hab

theorem bytesLt_total : ∀ a b : List UInt8,
    bytesLt a b = false → a ≠ b → bytesLt b a = true := by
  intro a
  induction a with
  | nil =>
    intro b hab hne
    cases b with
    | nil => exact absurd rfl hne
    | cons y b => simp [bytesLt] at hab
  | cons x a ih =>
    intro b hab hne
    cases b with
    | nil => rfl
    | cons y b =>
      rw [bytesLt] at hab ⊢
      by_cases hxy : x < y
      · rw [if_pos hxy] at hab
        simp at hab
      · rw [if_neg hxy] at hab
        by_cases hxe : x = y
        · subst hxe
          rw [if_pos rfl] at hab
          rw [if_neg hxy, if_pos rfl]
          exact ih b hab (by intro h; exact hne (by rw [h]))
        · rw [if_neg hxe] at hab
          have hyx : y < x := by
            rw [UInt8.lt_def, BitVec.lt_def] at hxy ⊢
            have hne : ¬ x.toBitVec.toNat = y.toBitVec.toNat := by
              intro h
              exact hxe (UInt8.eq_of_toBitVec_eq (BitVec.eq_of_toNat_eq h))
            omega
          rw [if_pos hyx]

/-- Elements of `mapInsert k v m` come from `m` or are the new pair. -/
theorem mem_mapInsert {k : List UInt8} {v : RespFrame}
    {m : List (List UInt8 × RespFrame)} :
    ∀ p ∈ mapInsert k v m, p ∈ m ∨ p = (k, v) := by
  induction m with
  | nil =>
    intro p hp
    simp [mapInsert] at hp
    exact Or.inr hp
  | cons q m ih =>
    obtain ⟨k', v'⟩ := q
    intro p hp
    rw [mapInsert] at hp
    by_cases h1 : bytesLt k k'
    · rw [if_pos h1] at hp
      rcases List.mem_cons.mp hp with h | h
      · exact Or.inr h
      · exact Or.inl h
    · rw [if_neg h1] at hp
      by_cases h2 : k = k'
      · rw [if_pos h2] at hp
        rcases List.mem_cons.mp hp with h | h
        · exact Or.inr h
        · exact Or.inl (by simp [h])
      · rw [if_neg h2] at hp
        rcases List.mem_cons.mp hp with h | h
        · exact Or.inl (by simp [h])
        · rcases ih p h with h3 | h3
          · exact Or.inl (by simp [h3])
          · exact Or.inr h3

/-- Keys strictly ascend along the list: every key is below all later keys
(the `BTreeMap` iteration-order invariant). -/
def keysSorted : List (List UInt8 × RespFrame) → Bool
  | [] => true
  | (k, _) :: rest => rest.all (fun p => bytesLt k p.1) && keysSorted rest

/-- `BTreeMap::insert` preserves the ascending-keys invariant. -/
theorem keysSorted_insert (k : List UInt8) (v : RespFrame) :
    ∀ m : List (List UInt8 × RespFrame),
    keysSorted m = true → keysSorted (mapInsert k v m) = true := by
  intro m
  induction m with
  | nil => intro _; simp [mapInsert, keysSorted]
  | cons q m ih =>
    obtain ⟨k', v'⟩ := q
    intro h
    rw [keysSorted, Bool.and_eq_true, List.all_eq_true] at h
    rw [mapInsert]
    by_cases h1 : bytesLt k k'
    · rw [if_pos h1]
      rw [keysSorted, Bool.and_eq_true, List.all_eq_true]
      constructor
      · intro p hp
        rcases List.mem_cons.mp hp with h2 | h2
        · subst h2; exact h1
        · exact bytesLt_trans k k' p.1 h1 (h.1 p h2)
      · rw [keysSorted, Bool.and_eq_true, List.all_eq_true]
        exact h
    · rw [if_neg h1]
      by_cases h2 : k = k'
      · rw [if_pos h2]
        rw [keysSorted, Bool.and_eq_true, List.all_eq_true]
        subst h2
        exact h
      · rw [if_neg h2]
        rw [keysSorted, Bool.and_eq_true, List.all_eq_true]
        constructor
        · intro p hp
          rcases mem_mapInsert p hp with h3 | h3
          · exact h.1 p h3
          · subst h3
            exact bytesLt_total k k' (by simpa using h1) h2
        · exact ih h.2

/-- A map built by inserting any sequence of pairs into the empty map
iterates in strictly ascending key order. -/
def mapOfPairs (ps : List (List UInt8 × RespFrame)) : List (List UInt8 × RespFrame) :=
  ps.foldl (fun acc p => mapInsert p.1 p.2 acc) []

theorem keysSorted_mapOfPairs (ps : List (List UInt8 × RespFrame)) :
    keysSorted (mapOfPairs ps) = true := by
  rw [mapOfPairs]
  have h : ∀ (qs : List (List UInt8 × RespFrame)) (acc : List (List UInt8 × RespFrame)),
      keysSorted acc = true →
      keysSorted (qs.foldl (fun acc p => mapInsert p.1 p.2 acc) acc) = true := by
    intro qs
    induction qs with
    | nil => intro acc h; simpa using h
    | cons q qs ih =>
      intro acc h
      rw [List.foldl_cons]
      exact ih _ (keysSorted_insert q.1 q.2 acc h)
  exact h ps [] rfl

/-! ## Encoding concatenation and terminator shape -/

theorem encodeL_eq_flatten (xs : List RespFrame) :
    encodeL xs = (xs.map encodeF).flatten := by
  induction xs with
  | nil => rfl
  | cons x xs ih => rw [encodeL, List.map_cons, List.flatten_cons, ih]

mutual

theorem encodeF_ends_crlf (v : RespFrame) : ∃ pre, encodeF v = pre ++ [13, 10] := by
  cases v with
  | SimpleString s => exact ⟨43 :: s, by rw [encodeF]; simp [crlf]⟩
  | Error s => exact ⟨45 :: s, by rw [encodeF]; simp [crlf]⟩
  | Integer n =>
    exact ⟨58 :: ((if n < 0 then [] else [43]) ++ intRepr n), by rw [encodeF]; simp [crlf]⟩
  | BulkString b =>
    exact ⟨36 :: (natDigits b.length ++ crlf ++ b), by rw [encodeF]; simp [crlf]⟩
  | NullBulkString => exact ⟨[36, 45, 49], rfl⟩
  | Null => exact ⟨[95], rfl⟩
  | NullArray => exact ⟨[42, 45, 49], rfl⟩
  | Boolean b => exact ⟨[35, if b then 116 else 102], by cases b <;> rfl⟩
  | Double d => exact ⟨44 :: f64Body d, by rw [encodeF]; simp [crlf]⟩
  | Arrays xs =>
    rcases encodeL_ends_crlf xs with h | ⟨pre, h⟩
    · exact ⟨42 :: natDigits xs.length, by rw [encodeF, h]; simp [crlf]⟩
    · exact ⟨42 :: (natDigits xs.length ++ crlf ++ pre), by rw [encodeF, h]; simp [crlf]⟩
  | Set xs =>
    rcases encodeL_ends_crlf xs with h | ⟨pre, h⟩
    · exact ⟨126 :: natDigits xs.length, by rw [encodeF, h]; simp [crlf]⟩
    · exact ⟨126 :: (natDigits xs.length ++ crlf ++ pre), by rw [encodeF, h]; simp [crlf]⟩
  | Map m =>
    rcases encodeM_ends_crlf m with h | ⟨pre, h⟩
    · exact ⟨37 :: natDigits m.length, by rw [encodeF, h]; simp [crlf]⟩
    · exact ⟨37 :: (natDigits m.length ++ crlf ++ pre), by rw [encodeF, h]; simp [crlf]⟩

theorem encodeL_ends_crlf (xs : List RespFrame) :
    encodeL xs = [] ∨ ∃ pre, encodeL xs = pre ++ [13, 10] := by
  cases xs with
  | nil => exact Or.inl rfl
  | cons x xs =>
    rcases encodeL_ends_crlf xs with h | ⟨pre, h⟩
    · rcases encodeF_ends_crlf x with ⟨pre', h'⟩
      exact Or.inr ⟨pre', by rw [encodeL, h, h']; simp⟩
    · exact Or.inr ⟨encodeF x ++ pre, by rw [encodeL, h]; simp⟩

theorem encodeM_ends_crlf (m : List (List UInt8 × RespFrame)) :
    encodeM m = [] ∨ ∃ pre, encodeM m = pre ++ [13, 10] := by
  cases m with
  | nil => exact Or.inl rfl
  | cons kv m =>
    obtain ⟨k, v⟩ := kv
    rcases encodeM_ends_crlf m with h | ⟨pre, h⟩
    · rcases encodeF_ends_crlf v with ⟨pre', h'⟩
      exact Or.inr ⟨(43 :: k ++ crlf) ++ pre', by rw [encodeM, h, h']; simp⟩
    · exact Or.inr ⟨(43 :: k ++ crlf) ++ encodeF v ++ pre, by rw [encodeM, h]; simp⟩

end

/-! ## The round-trip theorem -/

theorem decodeFuel_encode (fuel : Nat) :
    ∀ (v : RespFrame) (rest : List UInt8),
    wfF v = true → depthF v ≤ fuel →
    decodeFuel fuel (encodeF v ++ rest) = .ok (v, (encodeF v).length) := by
  induction fuel with
  | zero =>
    intro v rest _ hd
    have h1 : 1 ≤ depthF v := by cases v <;> simp [depthF]
    exact absurd hd (by omega)
  | succ fuel ih =>
    intro v rest hwf hd
    cases v with
    | SimpleString s =>
      rw [wfF] at hwf
      have hbuf : encodeF (.SimpleString s) ++ rest = 43 :: (s ++ 13 :: 10 :: rest) := by
        rw [encodeF]; simp [crlf]
      have hfind := findCRLF_append s rest hwf
      have htake := List.take_left s (13 :: 10 :: rest)
      have hlen : (encodeF (.SimpleString s)).length = s.length + 3 := by
        rw [encodeF]; simp [crlf]
      rw [hbuf, hlen]
      simp +decide only [decodeFuel, if_true, if_false, hfind, htake]
    | Error s =>
      rw [wfF] at hwf
      have hbuf : encodeF (.Error s) ++ rest = 45 :: (s ++ 13 :: 10 :: rest) := by
        rw [encodeF]; simp [crlf]
      have hfind := findCRLF_append s rest hwf
      have htake := List.take_left s (13 :: 10 :: rest)
      have hlen : (encodeF (.Error s)).length = s.length + 3 := by
        rw [encodeF]; simp [crlf]
      rw [hbuf, hlen]
      simp +decide only [decodeFuel, if_true, if_false, hfind, htake]
    | Integer n =>
      have hno := noCRLF_intBody n
      have hbuf : encodeF (.Integer n) ++ rest =
          58 :: (((if n < 0 then [] else [43]) ++ intRepr n) ++ 13 :: 10 :: rest) := by
        rw [encodeF]; simp [crlf]
      have hfind := findCRLF_append ((if n < 0 then [] else [43]) ++ intRepr n) rest hno
      have htake := List.take_left ((if n < 0 then [] else [43]) ++ intRepr n) (13 :: 10 :: rest)
      have hparse := parseIntBytes_roundtrip n
      have hlen : (encodeF (.Integer n)).length =
          ((if n < 0 then [] else [43]) ++ intRepr n).length + 3 := by
        rw [encodeF]; simp [crlf]; omega
      rw [hbuf, hlen]
      simp +decide only [decodeFuel, if_true, if_false, hfind, htake, hparse]
    | BulkString b =>
      have hno := noCRLF_of_no13 (natDigits b.length) (natDigits_no13 _)
      have hbuf : encodeF (.BulkString b) ++ rest =
          36 :: (natDigits b.length ++ 13 :: 10 :: (b ++ 13 :: 10 :: rest)) := by
        rw [encodeF]; simp [crlf]
      have hfind := findCRLF_append (natDigits b.length) (b ++ 13 :: 10 :: rest) hno
      have htake := List.take_left (natDigits b.length) (13 :: 10 :: (b ++ 13 :: 10 :: rest))
      have hparse := parseIntBytes_natDigits b.length
      have hm1 : ¬ ((b.length : Int) = -1) := by omega
      have hm2 : ¬ ((b.length : Int) < 0) := by omega
      have hdrop : (natDigits b.length ++ 13 :: 10 :: (b ++ 13 :: 10 :: rest)).drop
          ((natDigits b.length).length + 2) = b ++ 13 :: 10 :: rest := by
        rw [show natDigits b.length ++ 13 :: 10 :: (b ++ 13 :: 10 :: rest) =
            (natDigits b.length ++ [13, 10]) ++ (b ++ 13 :: 10 :: rest) by simp]
        exact List.drop_left' (by simp)
      have htn : ((b.length : Int)).toNat = b.length := rfl
      have hnlt : ¬ ((b ++ 13 :: 10 :: rest).length < b.length + 2) := by simp
      have hck : ((b ++ 13 :: 10 :: rest).drop b.length).take 2 = crlf := by
        rw [List.drop_left]; rfl
      have htkb : (b ++ 13 :: 10 :: rest).take b.length = b := List.take_left _ _
      have hlen : (encodeF (.BulkString b)).length =
          (natDigits b.length).length + 3 + b.length + 2 := by
        rw [encodeF]; simp [crlf]; omega
      rw [hbuf, hlen]
      simp +decide only [decodeFuel, if_true, if_false, hfind, htake, hparse, if_neg hm1, if_neg hm2, htn,
        hdrop, if_neg hnlt, hck, htkb, eq_self_iff_true, if_true]
    | NullBulkString => rfl
    | Null => rfl
    | NullArray => rfl
    | Boolean b => cases b <;> rfl
    | Double d =>
      rw [wfF] at hwf
      simp only [Bool.and_eq_true, decide_eq_true_eq] at hwf
      have hbuf : encodeF (.Double d) ++ rest = 44 :: (f64Body d ++ 13 :: 10 :: rest) := by
        rw [encodeF]; simp [crlf]
      have hfind := findCRLF_append (f64Body d) rest hwf.1
      have htake := List.take_left (f64Body d) (13 :: 10 :: rest)
      have hparse := hwf.2
      have hlen : (encodeF (.Double d)).length = (f64Body d).length + 3 := by
        rw [encodeF]; simp [crlf]
      rw [hbuf, hlen]
      simp +decide only [decodeFuel, if_true, if_false, hfind, htake, hparse]
    | Arrays xs =>
      rw [wfF] at hwf
      rw [depthF] at hd
      have hdec : ∀ x ∈ xs, ∀ r,
          decodeFuel fuel (encodeF x ++ r) = .ok (x, (encodeF x).length) :=
        fun x hx r => ih x r (wfL_mem hwf x hx) (le_trans (depthF_le_depthL hx) (by omega))
      have hmany := decodeMany_encode (decodeFuel fuel) xs (rest) hdec
      have hno := noCRLF_of_no13 (natDigits xs.length) (natDigits_no13 _)
      have hbuf : encodeF (.Arrays xs) ++ rest =
          42 :: (natDigits xs.length ++ 13 :: 10 :: (encodeL xs ++ rest)) := by
        rw [encodeF]; simp [crlf]
      have hfind := findCRLF_append (natDigits xs.length) (encodeL xs ++ rest) hno
      have htake := List.take_left (natDigits xs.length) (13 :: 10 :: (encodeL xs ++ rest))
      have hparse := parseIntBytes_natDigits xs.length
      have hm1 : ¬ ((xs.length : Int) = -1) := by omega
      have hm2 : ¬ ((xs.length : Int) < 0) := by omega
      have hdrop : (natDigits xs.length ++ 13 :: 10 :: (encodeL xs ++ rest)).drop
          ((natDigits xs.length).length + 2) = encodeL xs ++ rest := by
        rw [show natDigits xs.length ++ 13 :: 10 :: (encodeL xs ++ rest) =
            (natDigits xs.length ++ [13, 10]) ++ (encodeL xs ++ rest) by simp]
        exact List.drop_left' (by simp)
      have htn : ((xs.length : Int)).toNat = xs.length := rfl
      have hlen : (encodeF (.Arrays xs)).length =
          (natDigits xs.length).length + 3 + (encodeL xs).length := by
        rw [encodeF]; simp [crlf]; omega
      rw [hbuf, hlen]
      simp +decide only [decodeFuel, if_true, if_false, hfind, htake, hparse, if_neg hm1, if_neg hm2, htn,
        hdrop, hmany]
    | Set xs =>
      rw [wfF] at hwf
      rw [depthF] at hd
      have hdec : ∀ x ∈ xs, ∀ r,
          decodeFuel fuel (encodeF x ++ r) = .ok (x, (encodeF x).length) :=
        fun x hx r => ih x r (wfL_mem hwf x hx) (le_trans (depthF_le_depthL hx) (by omega))
      have hmany := decodeMany_encode (decodeFuel fuel) xs (rest) hdec
      have hno := noCRLF_of_no13 (natDigits xs.length) (natDigits_no13 _)
      have hbuf : encodeF (.Set xs) ++ rest =
          126 :: (natDigits xs.length ++ 13 :: 10 :: (encodeL xs ++ rest)) := by
        rw [encodeF]; simp [crlf]
      have hfind := findCRLF_append (natDigits xs.length) (encodeL xs ++ rest) hno
      have htake := List.take_left (natDigits xs.length) (13 :: 10 :: (encodeL xs ++ rest))
      have hparse := parseIntBytes_natDigits xs.length
      have hm2 : ¬ ((xs.length : Int) < 0) := by omega
      have hdrop : (natDigits xs.length ++ 13 :: 10 :: (encodeL xs ++ rest)).drop
          ((natDigits xs.length).length + 2) = encodeL xs ++ rest := by
        rw [show natDigits xs.length ++ 13 :: 10 :: (encodeL xs ++ rest) =
            (natDigits xs.length ++ [13, 10]) ++ (encodeL xs ++ rest) by simp]
        exact List.drop_left' (by simp)
      have htn : ((xs.length : Int)).toNat = xs.length := rfl
      have hlen : (encodeF (.Set xs)).length =
          (natDigits xs.length).length + 3 + (encodeL xs).length := by
        rw [encodeF]; simp [crlf]; omega
      rw [hbuf, hlen]
      simp +decide only [decodeFuel, if_true, if_false, hfind, htake, hparse, if_neg hm2, htn, hdrop, hmany]
    | Map m =>
      rw [wfF] at hwf
      rw [depthF] at hd
      have hdec : ∀ p ∈ m, ∀ r,
          decodeFuel fuel (encodeF p.2 ++ r) = .ok (p.2, (encodeF p.2).length) :=
        fun p hp r =>
          ih p.2 r (wfM_mem_val hwf p hp) (le_trans (depthF_le_depthM hp) (by omega))
      have hpairs := decodePairsGo_encode (decodeFuel fuel) m rest hdec (wfM_mem_key hwf)
      have hfold : m.foldl (fun acc p => mapInsert p.1 p.2 acc) [] = m := by
        have h := foldl_mapInsert_acc m [] hwf (by intro p hp; cases hp)
        simpa using h
      have hno := noCRLF_of_no13 (natDigits m.length) (natDigits_no13 _)
      have hbuf : encodeF (.Map m) ++ rest =
          37 :: (natDigits m.length ++ 13 :: 10 :: (encodeM m ++ rest)) := by
        rw [encodeF]; simp [crlf]
      have hfind := findCRLF_append (natDigits m.length) (encodeM m ++ rest) hno
      have htake := List.take_left (natDigits m.length) (13 :: 10 :: (encodeM m ++ rest))
      have hparse := parseIntBytes_natDigits m.length
      have hm2 : ¬ ((m.length : Int) < 0) := by omega
      have hdrop : (natDigits m.length ++ 13 :: 10 :: (encodeM m ++ rest)).drop
          ((natDigits m.length).length + 2) = encodeM m ++ rest := by
        rw [show natDigits m.length ++ 13 :: 10 :: (encodeM m ++ rest) =
            (natDigits m.length ++ [13, 10]) ++ (encodeM m ++ rest) by simp]
        exact List.drop_left' (by simp)
      have htn : ((m.length : Int)).toNat = m.length := rfl
      have hlen : (encodeF (.Map m)).length =
          (natDigits m.length).length + 3 + (encodeM m).length := by
        rw [encodeF]; simp [crlf]; omega
      rw [hbuf, hlen]
      simp +decide only [decodeFuel, if_true, if_false, hfind, htake, hparse, if_neg hm2, htn, hdrop,
        hpairs, hfold]

/-- The spec-level round-trip: for a well-formed frame, decoding a buffer that
is exactly its encoding (plus any trailing bytes) returns the frame and a
consumed count equal to the encoding's length. -/
theorem decode_encode (v : RespFrame) (hwf : wfF v = true) :
    decode (encodeF v) = .ok (v, (encodeF v).length) := by
  rw [decode]
  have h := decodeFuel_encode ((encodeF v).length + 1) v [] hwf
    (le_trans (depthF_le_len v) (by omega))
  simpa using h

/-! ## Claim theorems -/

/-- A deeply nested constructible frame exercising every variant, used as the
round-trip witness. -/
def c1Frame : RespFrame :=
  .Arrays [
    .SimpleString (strB "OK"),
    .Error (strB "Error message"),
    .Integer (-123),
    .Integer 123456789,
    .BulkString (strB "He\r\nllo"),
    .NullBulkString,
    .Null,
    .NullArray,
    .Boolean true,
    .Boolean false,
    .Double f64Pos1_23456,
    .Double f64OneE8,
    .Map (mapInsert (strB "a") (.Integer 1)
      (mapInsert (strB "b") (.Double f64Of1234_567) [])),
    .Set [.Integer 1, .Integer 2, .Integer 3],
    .Arrays []
  ]

/-- C1 counterexample: the claim fails as stated.  The double `-0.0` is
constructible, encodes to `,+-0\r\n` (the sign test `-0.0 < 0.0` is false, so
`+` is prepended to the host rendering `-0`), and decoding that buffer is a
float-conversion error, not `(v, length)`. -/
theorem C1_counterexample :
    encodeF (.Double f64NegZero) = strB ",+-0\r\n" ∧
    decode (encodeF (.Double f64NegZero)) ≠
      .ok (.Double f64NegZero, (encodeF (.Double f64NegZero)).length) := by
  refine ⟨rfl, ?_⟩
  have h : decode (encodeF (.Double f64NegZero)) =
      .error (.ParseFloatError (strB "+-0")) := rfl
  rw [h]
  simp

/-- C1 (amended): for every constructible Frame whose SimpleString/SimpleError
texts and Map keys contain no CRLF pair and whose Double payloads carry
canonical host renderings that the host float parser reads back (which
excludes `-0.0` and NaN), decoding a buffer holding exactly `encode v`
returns `v` together with a consumed count equal to `(encode v).length` —
the decoder mirrors the encoder's framing rules exactly. -/
theorem C1_roundtrip (v : RespFrame) (h : wfF v = true) :
    decode (encodeF v) = .ok (v, (encodeF v).length) :=
  decode_encode v h

/-- C1 witness: the round-trip theorem applied to a concrete frame nesting
every variant (its hypothesis evaluated by `rfl`). -/
theorem C1_roundtrip_witness :
    wfF c1Frame = true ∧
    decode (encodeF c1Frame) = .ok (c1Frame, (encodeF c1Frame).length) :=
  ⟨rfl, C1_roundtrip c1Frame rfl⟩

/-- C2: for every i64 value `n`, the encoding is the tag `:`, then `+`
exactly when `n ≥ 0`, then the decimal digits of `n` (a `-` sign for negative
values; `readNat` confirms the digits denote `|n|`), then CRLF; in particular
`123456789` encodes to `:+123456789\r\n` and `-123` to `:-123\r\n`. -/
theorem C2_integer_encode :
    (∀ n : Int,
      encodeF (.Integer n) = [58] ++ (if 0 ≤ n then [43] else []) ++ intRepr n ++ crlf ∧
      readNat (natDigits n.natAbs) = n.natAbs) ∧
    encodeF (.Integer 123456789) = strB ":+123456789\r\n" ∧
    encodeF (.Integer (-123)) = strB ":-123\r\n" := by
  refine ⟨fun n => ⟨?_, readNat_natDigits _⟩, rfl, rfl⟩
  rw [encodeF]
  by_cases h : n < 0
  · rw [if_pos h, if_neg (by omega)]
    rfl
  · rw [if_neg h, if_pos (by omega)]
    rfl

/-- C3: a Map encodes as tag `%`, decimal pair count, CRLF, then each pair as
the key rendered as a SimpleString followed by the value's encoding; a map
built by `insert` iterates in strictly ascending byte-lexicographic key order
whatever the insertion order, and the two insertion orders of
`"a"->1, "b"->1234.567` both encode to `%2\r\n+a\r\n:+1\r\n+b\r\n,+1234.567\r\n`. -/
theorem C3_map_encode :
    (∀ m, encodeF (.Map m) = 37 :: (natDigits m.length ++ crlf ++ encodeM m)) ∧
    (∀ (k : List UInt8) (v : RespFrame) (rest : List (List UInt8 × RespFrame)),
      encodeM ((k, v) :: rest) = encodeF (.SimpleString k) ++ encodeF v ++ encodeM rest) ∧
    (∀ ps, keysSorted (mapOfPairs ps) = true) ∧
    encodeF (.Map (mapOfPairs [(strB "a", .Integer 1), (strB "b", .Double f64Of1234_567)])) =
      strB "%2\r\n+a\r\n:+1\r\n+b\r\n,+1234.567\r\n" ∧
    encodeF (.Map (mapOfPairs [(strB "b", .Double f64Of1234_567), (strB "a", .Integer 1)])) =
      strB "%2\r\n+a\r\n:+1\r\n+b\r\n,+1234.567\r\n" :=
  ⟨fun _ => rfl, fun _ _ _ => rfl, keysSorted_mapOfPairs, rfl, rfl⟩

/-- C4: a Double encodes as tag `,`, then — when `|d| ≥ 1e8` — the scientific
rendering with no `+` sign, otherwise the fixed-point rendering with a leading
`+` exactly when the sign test `d < 0.0` is false, then CRLF; in particular
`1e8 ↦ ,1e8\r\n`, `1.23456 ↦ ,+1.23456\r\n`, `-123.456 ↦ ,-123.456\r\n`. -/
theorem C4_double_encode :
    (∀ d : F64, encodeF (.Double d) =
      44 :: ((if d.absGe1e8 then d.lowerExp
              else (if d.ltZero then [] else [43]) ++ d.display) ++ crlf)) ∧
    encodeF (.Double f64OneE8) = strB ",1e8\r\n" ∧
    encodeF (.Double f64Pos1_23456) = strB ",+1.23456\r\n" ∧
    encodeF (.Double f64Neg123_456) = strB ",-123.456\r\n" :=
  ⟨fun _ => rfl, rfl, rfl, rfl⟩

/-- C5: Arrays and Sets encode as their tag (`*` or `~`), the decimal element
count, CRLF, then the concatenation of the element encodings in sequence
order; in particular the three-SimpleString array and the 1,2,3 integer set
encode to the specified byte strings. -/
theorem C5_array_set_encode :
    (∀ xs : List RespFrame,
      encodeF (.Arrays xs) =
        42 :: (natDigits xs.length ++ crlf ++ (xs.map encodeF).flatten) ∧
      encodeF (.Set xs) =
        126 :: (natDigits xs.length ++ crlf ++ (xs.map encodeF).flatten)) ∧
    encodeF (.Arrays [.SimpleString (strB "Set"), .SimpleString (strB "Hello"),
      .SimpleString (strB "World")]) = strB "*3\r\n+Set\r\n+Hello\r\n+World\r\n" ∧
    encodeF (.Set [.Integer 1, .Integer 2, .Integer 3]) =
      strB "~3\r\n:+1\r\n:+2\r\n:+3\r\n" := by
  refine ⟨fun xs => ⟨?_, ?_⟩, rfl, rfl⟩
  · rw [encodeF, encodeL_eq_flatten]
  · rw [encodeF, encodeL_eq_flatten]

/-- C6: a BulkString of arbitrary payload bytes `b` (CR/LF included) encodes
as tag `$`, the decimal digits of the exact byte length (`readNat` confirms
the digits denote `b.length`), CRLF, the raw payload, CRLF. -/
theorem C6_bulkstring_encode :
    ∀ b : List UInt8,
      encodeF (.BulkString b) = 36 :: (natDigits b.length ++ crlf ++ b ++ crlf) ∧
      readNat (natDigits b.length) = b.length ∧
      (natDigits b.length).all isDigit = true :=
  fun _ => ⟨rfl, readNat_natDigits _, natDigits_all_digits _⟩

/-- C7: the three null variants encode to exactly `$-1\r\n`, `*-1\r\n` and
`_\r\n`, and these three byte sequences are pairwise distinct — the encoder
never collapses one null form into another. -/
theorem C7_null_encodings :
    encodeF .NullBulkString = strB "$-1\r\n" ∧
    encodeF .NullArray = strB "*-1\r\n" ∧
    encodeF .Null = strB "_\r\n" ∧
    encodeF .NullBulkString ≠ encodeF .NullArray ∧
    encodeF .NullBulkString ≠ encodeF .Null ∧
    encodeF .NullArray ≠ encodeF .Null := by
  refine ⟨rfl, rfl, rfl, ?_, ?_, ?_⟩ <;> decide

/-- C8: every frame's encoding is non-empty and its last two bytes are CR LF. -/
theorem C8_encode_ends_with_crlf (v : RespFrame) :
    encodeF v ≠ [] ∧ ∃ pre, encodeF v = pre ++ [13, 10] := by
  rcases encodeF_ends_crlf v with ⟨pre, h⟩
  constructor
  · rw [h]; simp
  · exact ⟨pre, h⟩

/-- C9: the SimpleString/SimpleError constructors are total (no validation),
and for every text `s` — embedded CR/LF included — the encoding is exactly the
tag byte, the raw text unchanged, and a trailing CRLF; concretely the text
`a\r\nb` passes through unrejected. -/
theorem C9_unvalidated_text :
    (∀ s : List UInt8,
      encodeF (simpleStringNew s) = 43 :: (s ++ crlf) ∧
      encodeF (simpleErrorNew s) = 45 :: (s ++ crlf)) ∧
    encodeF (simpleStringNew (strB "a\r\nb")) = strB "+a\r\nb\r\n" :=
  ⟨fun _ => ⟨rfl, rfl⟩, rfl⟩

/-- C10: for `-0.0` and NaN the encoder's negativity test `self < 0.0` is
false, so a `+` is prepended to the host renderings `-0` and `NaN`, giving
`,+-0\r\n` and `,+NaN\r\n` — and neither body parses as a decimal numeral of
the wire grammar. -/
theorem C10_negzero_nan_encode :
    f64NegZero.ltZero = false ∧ f64NaN.ltZero = false ∧
    encodeF (.Double f64NegZero) = strB ",+-0\r\n" ∧
    encodeF (.Double f64NaN) = strB ",+NaN\r\n" ∧
    parseF64Body (strB "+-0") = none ∧
    parseF64Body (strB "+NaN") = none := by
  refine ⟨rfl, rfl, rfl, rfl, ?_, ?_⟩ <;> decide

end Resp
